import Mathlib

/-!
Verification development for the parameter-comparison plugin
(source: src/index.tsx). The definitions below are a shallow embedding
of the plugin's core logic: token extraction, per-record comparison,
the batch run with its error boundary, the substitution resolver
(cycle detection and auto-fix), save-time validation, and the
text-substitution apply step. JS machine numbers are modelled as `Rat`
(the inputs exercised here are exact decimals), JS stable `sort` as
insertion sort with a `≤` comparator (extensionally equal to any stable
sort), and the two mutable `Set`s of the resolver's DFS as explicit
list-valued state. Recursions that are unbounded in the source
(the chain-building `while` loop) take an explicit fuel argument and
return `none` when the fuel runs out, so non-termination of the source
is expressible as: the result is `none` for every fuel.
-/

/-- Numeric value of a decimal digit character. -/
def digitVal (c : Char) : Nat := c.toNat - Char.toNat '0'

/-- Value of a string of decimal digits (most significant first). -/
def digitsToNat (l : List Char) : Nat := l.foldl (fun a c => 10 * a + digitVal c) 0

/-- Characters treated as whitespace by JS string-to-number coercion
(the common ones; sufficient for every input considered here). -/
def isJsSpace (c : Char) : Bool :=
  c = ' ' || c = '\t' || c = '\n' || c = '\r' || c = '\x0b' || c = '\x0c'

/-- Unsigned decimal literal as read by JS `Number`: digits, optionally
followed by a decimal point and further digits; at least one digit in
total; nothing may follow. Returns `none` on any other shape (NaN). -/
def parseDecimal (l : List Char) : Option Rat :=
  let ip := l.takeWhile (fun c => c.isDigit)
  let r1 := l.dropWhile (fun c => c.isDigit)
  match r1 with
  | [] => if ip.isEmpty then none else some ((digitsToNat ip : Int) : Rat)
  | c :: r2 =>
    if c = '.' then
      let fp := r2.takeWhile (fun c => c.isDigit)
      let r3 := r2.dropWhile (fun c => c.isDigit)
      if r3.isEmpty && !(ip.isEmpty && fp.isEmpty) then
        some (mkRat (digitsToNat ip * 10 ^ fp.length + digitsToNat fp) (10 ^ fp.length))
      else none
    else none

/-- Signed decimal literal: optional sign then `parseDecimal`. -/
def parseSigned (l : List Char) : Option Rat :=
  match l with
  | [] => none
  | c :: r =>
    if c = '-' then (parseDecimal r).map (fun q => -q)
    else if c = '+' then parseDecimal r
    else parseDecimal l

/-- Model of the JS `Number(string)` coercion, restricted to decimal
numeric literals (the hex/binary/`Infinity` forms of the JS grammar are
not modelled; no claim depends on them). Surrounding whitespace is
trimmed; a whitespace-only string coerces to `0`; otherwise the string
must be a signed decimal literal, and any other content gives `none`
(standing for NaN). -/
def jsNumber (s : String) : Option Rat :=
  let t := ((s.toList.dropWhile isJsSpace).reverse.dropWhile isJsSpace).reverse
  if t.isEmpty then some 0 else parseSigned t

/-- Model of JS `Array.prototype.sort` with comparator `(a, b) => a - b`
on a number array: a stable ascending sort. Insertion sort with `≤` is
stable, so it is extensionally the sort the source uses. -/
def sortNat (l : List Nat) : List Nat := l.insertionSort (fun a b => a ≤ b)

/-- Scanner for the regex `/\{(\d+)\}/g` used by the source's token
extraction: the state `none` means "not inside a candidate token", and
`some ds` means "a brace was opened and `ds` digits have been read".
On a malformed candidate the regex engine resumes one character after
the failed match start; since the skipped characters are digits (never
an opening brace), resuming right at the failing character is
equivalent, which is what the failure branches do. -/
def scanTokens : List Char → Option (List Char) → List Nat
  | [], _ => []
  | c :: rest, none =>
    if c = '{' then scanTokens rest (some []) else scanTokens rest none
  | c :: rest, some ds =>
    if c.isDigit then scanTokens rest (some (ds ++ [c]))
    else if c = '}' then
      if ds.isEmpty then scanTokens rest none
      else digitsToNat ds :: scanTokens rest none
    else if c = '{' then scanTokens rest (some [])
    else scanTokens rest none

/-- Integer tokens of a text, in textual order: the values matched by
`text.match(/\{(\d+)\}/g)` after stripping the braces. -/
def extractTokens (s : String) : List Nat := scanTokens s.toList none

/-- Token Extractor: tokens of a text sorted ascending (the source
sorts the matched numbers with `(a, b) => a - b` right away). -/
def extractParameters (s : String) : List Nat := sortNat (extractTokens s)

/-- Cell value variant: the source only ever inspects the first element
of an array-valued cell and requires `type === 'text'` with a string
payload; every other shape is `other`. -/
inductive Cell where
  | text (s : String)
  | other
deriving DecidableEq

/-- Element of `table.getFieldList()`: only the id is consumed. -/
structure TableField where
  id : String
deriving DecidableEq

/-- Element of `view.getFieldMetaList()`: id and display name. -/
structure FieldMeta where
  id : String
  name : String
deriving DecidableEq

/-- Record as fetched from the host: an id and a cell map, modelled as
an association list from field id to the cell's array value. An absent
or non-array cell value is simply an absent key. -/
structure RecordData where
  recordId : String
  fields : List (String × List Cell)
deriving DecidableEq

/-- Association-list lookup for a record's cell value (models
`record.fields[field.id]`). -/
def recField (r : RecordData) (fid : String) : Option (List Cell) :=
  go r.fields
where
  go : List (String × List Cell) → Option (List Cell)
  | [] => none
  | (k, v) :: rest => if k = fid then some v else go rest

/-- ParameterInfo produced per (record, field) pair with tokens. -/
structure ParameterInfo where
  fieldName : String
  fieldId : String
  parameters : List Nat
  order : Nat
deriving DecidableEq

/-- JS `Number.MAX_SAFE_INTEGER`, the order given to a field without a
view meta entry. -/
def maxSafeInteger : Nat := 2 ^ 53 - 1

/-- Find the first meta entry with the given field id together with its
index (models `fieldMetaList.find(...)` followed by `indexOf`). -/
def findMetaIdx : List FieldMeta → String → Nat → Option (FieldMeta × Nat)
  | [], _, _ => none
  | m :: rest, fid, i => if m.id = fid then some (m, i) else findMetaIdx rest fid (i + 1)

/-- Embedding of `extractParametersFromRecord`: walk the table's field
list, keep fields whose cell is a non-empty array headed by a text cell
with at least one token, attach the view-order index (or
`MAX_SAFE_INTEGER` when the field has no meta entry), and sort the
collected entries by order with JS's stable sort. -/
def extractParametersFromRecord (r : RecordData) (tfields : List TableField)
    (metaList : List FieldMeta) : List ParameterInfo :=
  let raw := tfields.filterMap (fun f =>
    match recField r f.id with
    | some (Cell.text s :: _) =>
      let nums := extractParameters s
      if nums.isEmpty then none
      else
        match findMetaIdx metaList f.id 0 with
        | some (m, i) => some (ParameterInfo.mk m.name f.id nums i)
        | none => some (ParameterInfo.mk f.id f.id nums maxSafeInteger)
    | _ => none)
  raw.insertionSort (fun a b => a.order ≤ b.order)

/-- Per-field entry of a published comparison result: field name with
the field's full token list. -/
structure DiffEntry where
  fieldName : String
  parameters : List Nat
deriving DecidableEq

/-- Comparison result for one inconsistent record. -/
structure RecordComparison where
  recordId : String
  recordName : String
  differences : List DiffEntry
deriving DecidableEq

/-- Comparison used at line 619 of the source: the sorted copies of the
two token lists are unequal (JSON stringification of two number arrays
is equality of the lists). -/
def paramsDiffer (b c : List Nat) : Bool := decide (sortNat b ≠ sortNat c)

/-- Display name of a record (lines 630–641): the text of the first
meta field's cell when it is a non-empty text, else a default built
from the record id. Returns `none` when the meta list is empty, in
which case the source dereferences `undefined` and throws. -/
def recordDisplayName (metaList : List FieldMeta) (r : RecordData) : Option String :=
  match metaList with
  | [] => none
  | m0 :: _ =>
    some (match recField r m0.id with
      | some (Cell.text s :: _) => if s = "" then "记录 " ++ r.recordId else s
      | _ => "记录 " ++ r.recordId)

/-- Per-record body of the batch loop (lines 595–656). Result shape:
`some none` means the record is skipped or consistent; `some (some c)`
means the record is reported with comparison `c`; `none` means the
iteration threw (empty meta list while building the record name), which
aborts the whole run. -/
def compareRecord (selected : List String) (tfields : List TableField)
    (metaList : List FieldMeta) (r : RecordData) : Option (Option RecordComparison) :=
  let params := extractParametersFromRecord r tfields metaList
  match params with
  | [] => some none
  | [_] => some none
  | base :: rest =>
    let diffs := rest.filter (fun p =>
      selected.contains p.fieldId && paramsDiffer base.parameters p.parameters)
    if diffs.isEmpty then some none
    else
      match recordDisplayName metaList r with
      | none => none
      | some nm =>
        let allFieldParams := (params.filter (fun p => selected.contains p.fieldId)).map
          (fun p => DiffEntry.mk p.fieldName p.parameters)
        some (some (RecordComparison.mk r.recordId nm allFieldParams))

/-- Aggregation over the fetched records, in input order; a thrown
iteration aborts the run (`none`). -/
def compareAllPure (selected : List String) (tfields : List TableField)
    (metaList : List FieldMeta) : List RecordData → Option (List RecordComparison)
  | [] => some []
  | r :: rs =>
    match compareRecord selected tfields metaList r with
    | none => none
    | some none => compareAllPure selected tfields metaList rs
    | some (some c) => (compareAllPure selected tfields metaList rs).map (fun l => c :: l)

/-- Reported comparison of a single record, if any. -/
def reportOf (selected : List String) (tfields : List TableField)
    (metaList : List FieldMeta) (r : RecordData) : Option RecordComparison :=
  match compareRecord selected tfields metaList r with
  | some (some c) => some c
  | _ => none

/-- UI-visible state touched by a batch run: the published comparison
list, the transient status message, and the in-flight flag. -/
structure AppState where
  comparisons : List RecordComparison
  floatingMessage : String
  isComparing : Bool
deriving DecidableEq

/-- Embedding of `compareAllRecords` (lines 550–667) around its
`try`/`catch`/`finally` boundary. The host fetch is modelled by the
pages aggregated before a possible failure plus an optional failure
message: on failure the `catch` arm only sets the error message, so the
pages already aggregated are discarded and the published list is left
untouched; with no records the run returns early; a thrown iteration
(empty meta list) is likewise caught; otherwise the aggregate is
published. `finally` clears the in-flight flag on every path. -/
def compareAllRecordsRun (selected : List String) (tfields : List TableField)
    (metaList : List FieldMeta) (pages : List (List RecordData))
    (fetchFailure : Option String) (st : AppState) : AppState :=
  match fetchFailure with
  | some e => AppState.mk st.comparisons ("比较出错: " ++ e) false
  | none =>
    let allRecords := pages.flatten
    if allRecords.isEmpty then AppState.mk st.comparisons "没有记录可比较" false
    else
      match compareAllPure selected tfields metaList allRecords with
      | none => AppState.mk st.comparisons ("比较出错: " ++ "TypeError") false
      | some comps => AppState.mk comps ("比较完成！发现 " ++ toString comps.length ++ " 条不一致的记录") false

/-- Association lookup in the resolver's replacement map, keyed by JS
numbers (models `Map.get`; the maps built below always have distinct
keys, matching a JS `Map`). -/
def mlookup : List (Rat × Rat) → Rat → Option Rat
  | [], _ => none
  | (k, v) :: rest, x => if k = x then some v else mlookup rest x

/-- Insertion preserving a `Map.set`'s semantics: overwrite the value
at an existing key in place, else append. -/
def setEntry : List (Rat × Rat) → Rat → Rat → List (Rat × Rat)
  | [], k, v => [(k, v)]
  | (k0, v0) :: rest, k, v =>
    if k0 = k then (k0, v) :: rest else (k0, v0) :: setEntry rest k v

/-- Embedding of the `replacementMap` construction (lines 90–96): keep
entries whose value string is non-empty and coerces to a number. -/
def buildMap (g : List (Nat × String)) : List (Rat × Rat) :=
  g.foldl (fun acc e =>
    if e.2 = "" then acc
    else
      match jsNumber e.2 with
      | some q => setEntry acc ((e.1 : Nat) : Rat) q
      | none => acc) []

/-- Embedding of the `tempReplacements` construction of the fix phase
(lines 128–138): like `buildMap` but also dropping entries whose value
equals their key. -/
def buildMapNe (g : List (Nat × String)) : List (Rat × Rat) :=
  g.foldl (fun acc e =>
    if e.2 = "" then acc
    else
      match jsNumber e.2 with
      | some q => if ((e.1 : Nat) : Rat) = q then acc else setEntry acc ((e.1 : Nat) : Rat) q
      | none => acc) []

/-- Removal of the first occurrence (models `Set.delete`). -/
def eraseFirst : List Rat → Rat → List Rat
  | [], _ => []
  | x :: rest, y => if x = y then rest else x :: eraseFirst rest y

/-- Every key and value of the map: a finite superset of every node the
DFS can ever visit. -/
def allNodes (m : List (Rat × Rat)) : List Rat := m.map Prod.fst ++ m.map Prod.snd

/-- Fuel that provably suffices for the DFS below. -/
def detectFuel (m : List (Rat × Rat)) : Nat := (allNodes m).length + 1

/-- Embedding of the recursive closure `hasCycle` (lines 102–116) with
its two shared mutable sets made explicit: result is the returned
boolean together with the final `visited` and `stack` contents. When it
returns `true` from inside the recursion the source skips the
`stack.delete`, which the threading reproduces. `none` means the fuel
ran out (ruled out for `detectFuel` by `hasCycleAux_isSome` below). -/
def hasCycleAux (m : List (Rat × Rat)) :
    Nat → Rat → List Rat → List Rat → Option (Bool × List Rat × List Rat)
  | 0, _, _, _ => none
  | fuel + 1, start, visited, stack =>
    if start ∈ stack then some (true, visited, stack)
    else if start ∈ visited then some (false, visited, stack)
    else
      match mlookup m start with
      | some next =>
        if next ≠ start then
          match hasCycleAux m fuel next (start :: visited) (start :: stack) with
          | none => none
          | some (true, v2, s2) => some (true, v2, s2)
          | some (false, v2, s2) => some (false, v2, eraseFirst s2 start)
        else some (false, start :: visited, eraseFirst (start :: stack) start)
      | none => some (false, start :: visited, eraseFirst (start :: stack) start)

/-- Embedding of the detection loop (lines 119–124): walk the map's
entries, sharing `visited` and `stack` across the starts, and stop at
the first start that uncovers a cycle. -/
def detectLoop (m : List (Rat × Rat)) :
    List (Rat × Rat) → List Rat → List Rat → Option Bool
  | [], _, _ => some false
  | (o, r) :: rest, visited, stack =>
    if o ≠ r then
      match hasCycleAux m (detectFuel m) o visited stack with
      | none => none
      | some (true, _, _) => some true
      | some (false, v2, s2) => detectLoop m rest v2 s2
    else detectLoop m rest visited stack

/-- Detection phase of `detectAndFixCircularReplacements` for one
parameter group: the value of `hasCircular` after lines 89–124. -/
def detectCircularGroup (g : List (Nat × String)) : Option Bool :=
  let m := buildMap g
  detectLoop m m [] []

/-- Spec-side step of the replacement graph, as §4.4 defines it: an
edge `x → y` exists iff the mapping sends `x` to `y` and `x ≠ y`. -/
def stepF (m : List (Rat × Rat)) (x : Rat) : Option Rat :=
  match mlookup m x with
  | some y => if y = x then none else some y
  | none => none

/-- Iterated steps along the (functional) replacement graph. -/
def stepIter (m : List (Rat × Rat)) : Nat → Rat → Option Rat
  | 0, x => some x
  | k + 1, x =>
    match stepF m x with
    | some y => stepIter m k y
    | none => none

/-- Spec-side cycle existence: some chain `a → b → ... → a` of at least
one edge. Since every edge excludes self-loops, such a chain always
involves at least 2 distinct values, matching §4.4's wording. -/
def specCycle (m : List (Rat × Rat)) : Prop :=
  ∃ x k, stepIter m (k + 1) x = some x

/-- A node from which the walk along the graph meets a cycle. -/
def reachesCycle (m : List (Rat × Rat)) (x : Rat) : Prop :=
  ∃ j z, stepIter m j x = some z ∧ ∃ k, stepIter m (k + 1) z = some z

/-- Embedding of the chain-building `while` loop of the fix phase
(lines 147–153): starting from `chain = [original]` and
`current = replaced`, push `current` and step while `current` is a key
of `tempReplacements` and not yet processed. The source has no fuel:
`none` models a loop that is still running after `fuel` iterations. -/
def chainWhile (temp : List (Rat × Rat)) (processed : List Rat) :
    List Rat → Rat → Nat → Option (List Rat × Rat)
  | _, _, 0 => none
  | chain, current, fuel + 1 =>
    match mlookup temp current with
    | some next =>
      if current ∈ processed then some (chain, current)
      else chainWhile temp processed (chain ++ [current]) next fuel
    | none => some (chain, current)

/-- Embedding of the chain-collection loop (lines 144–159): iterate the
map's entries, skip processed keys, build one chain per remaining key,
and record its members as processed after the chain is complete. -/
def buildChains (temp : List (Rat × Rat)) :
    List (Rat × Rat) → List Rat → List (List Rat) → Nat →
    Option (List (List Rat) × List Rat)
  | [], processed, chains, _ => some (chains, processed)
  | (o, r) :: rest, processed, chains, fuel =>
    if o ∈ processed then buildChains temp rest processed chains fuel
    else
      match chainWhile temp processed [o] r fuel with
      | none => none
      | some (chain, _) =>
        if chain.length > 0 then
          buildChains temp rest (processed ++ chain) (chains ++ [chain]) fuel
        else buildChains temp rest processed chains fuel

/-- Little-endian digit values of a natural number; the fuel argument
is structural and `n + 1` always suffices. -/
def natDigitsLE : Nat → Nat → List Nat
  | 0, _ => []
  | fuel + 1, n => if n < 10 then [n] else n % 10 :: natDigitsLE fuel (n / 10)

/-- Value of a little-endian digit list. -/
def fromLE : List Nat → Nat
  | [] => 0
  | d :: r => d + 10 * fromLE r

/-- Canonical decimal digit characters of a natural number, most
significant first (the canonical numeric-string key of a JS object, and
the rendering of a nonnegative integer by `toString`). -/
def natDigits (n : Nat) : List Char :=
  ((natDigitsLE (n + 1) n).map (fun d => Char.ofNat (d + 48))).reverse

/-- Fractional digit characters of `rem / den` by long division; the
callers only ever produce terminating decimals, for which 64 digits of
fuel are far more than enough. -/
def fracDigitsChars : Nat → Nat → Nat → List Char
  | _, _, 0 => []
  | rem, den, fuel + 1 =>
    if rem = 0 then []
    else Char.ofNat (rem * 10 / den % 10 + 48) :: fracDigitsChars (rem * 10 % den) den fuel

/-- Model of JS number `toString` on the values arising here: exact
integers print as signed decimal digits, and the non-integral values
produced by `jsNumber` (finite decimals) print with their fractional
digits. -/
def jsNumToString (q : Rat) : String :=
  let sign := if q.num < 0 then "-" else ""
  let a := q.num.natAbs
  let ipart := a / q.den
  let rem := a % q.den
  sign ++ String.mk (natDigits ipart) ++
    (if rem = 0 then "" else "." ++ String.mk (fracDigitsChars rem q.den 64))

/-- Overwrite of one group value (models the assignment
`fixedReplacements[paramKey][value] = finalValue.toString()`; the
assigned keys are always chain members, which are always existing keys
of the group, so an in-place overwrite is the only case that occurs). -/
def setGroupValue (g : List (Nat × String)) (key : Rat) (v : String) :
    List (Nat × String) :=
  g.map (fun p => if ((p.1 : Nat) : Rat) = key then (p.1, v) else p)

/-- Fix application for one chain (lines 162–170): chains of length at
least 2 point every member but the last at the last member's value. -/
def applyChainFix (g : List (Nat × String)) (ch : List Rat) : List (Nat × String) :=
  if ch.length > 1 then
    match ch.getLast? with
    | some fin => ch.dropLast.foldl (fun acc v => setGroupValue acc v (jsNumToString fin)) g
    | none => g
  else g

/-- Whole resolver for one parameter group (lines 83–175 restricted to
a single group): detect, and when a cycle was found run the fix phase.
`none` means the run did not finish within `fuel` iterations of the
chain-building loop; since the source has no fuel, a result that is
`none` for every fuel is a non-terminating source run. -/
def detectAndFixGroup (g : List (Nat × String)) (fuel : Nat) :
    Option (Bool × List (Nat × String)) :=
  match detectCircularGroup g with
  | none => none
  | some false => some (false, g)
  | some true =>
    match buildChains (buildMapNe g) (buildMapNe g) [] [] fuel with
    | none => none
    | some (chains, _) => some (true, chains.foldl applyChainFix g)

/-- Boolean prefix test on character lists. -/
def leadsWith : List Char → List Char → Bool
  | [], _ => true
  | _ :: _, [] => false
  | p :: ps, c :: cs => p = c && leadsWith ps cs

/-- Single pass of JS `text.replace(pat, rep)` with a global regex that
matches the literal characters `pat`: leftmost match, emit `rep`, skip
the matched characters (the positive `skip` state), continue after it;
non-overlapping. Structural in the text. -/
def replaceAux (pat rep : List Char) : List Char → Nat → List Char
  | [], _ => []
  | _ :: rest, skip + 1 => replaceAux pat rep rest skip
  | c :: rest, 0 =>
    if !pat.isEmpty && leadsWith pat (c :: rest) then
      rep ++ replaceAux pat rep rest (pat.length - 1)
    else c :: replaceAux pat rep rest 0

/-- Replace all occurrences of the literal pattern, leftmost first. -/
def replaceSub (pat rep t : List Char) : List Char := replaceAux pat rep t 0

/-- Token text `{o}` for an integer token value, the literal the regex
built at line 836 matches. -/
def tokN (o : Nat) : List Char := '{' :: (natDigits o ++ ['}'])

/-- Replacement text `{n}` for the (JS-number) new value. -/
def tokR (q : Rat) : List Char := '{' :: ((jsNumToString q).toList ++ ['}'])

/-- Apply one mapping entry to a text (lines 836–837). -/
def applyOne (o : Nat) (n : Rat) (t : List Char) : List Char :=
  replaceSub (tokN o) (tokR n) t

/-- Apply a field's numeric mapping to a text (lines 833–839): entries
in order, skipping entries whose new value equals the original. -/
def applyEntries (l : List (Nat × Rat)) (t : List Char) : List Char :=
  l.foldl (fun acc p => if ((p.1 : Nat) : Rat) ≠ p.2 then applyOne p.1 p.2 acc else acc) t

/-- String-level wrapper of `applyEntries`. -/
def applyEntriesStr (l : List (Nat × Rat)) (s : String) : String :=
  String.mk (applyEntries l s.toList)

/-- Generic association lookup keyed by strings. -/
def lookupAssocStr {α : Type} : List (String × α) → String → Option α
  | [], _ => none
  | (k, v) :: rest, x => if k = x then some v else lookupAssocStr rest x

/-- Generic association overwrite-or-append keyed by strings (models a
JS object property assignment). -/
def setAssocStr {α : Type} : List (String × α) → String → α → List (String × α)
  | [], k, v => [(k, v)]
  | (k0, v0) :: rest, k, v =>
    if k0 = k then (k0, v) :: rest else (k0, v0) :: setAssocStr rest k v

/-- Validity of one replacement value exactly as `handleSave` checks it
(line 213): invalid iff the string is empty or coerces to NaN. -/
def validEntryValue (v : String) : Bool := !(v = "" || (jsNumber v).isNone)

/-- Embedding of `handleSave` (lines 204–243) up to the `onSave` call:
validate every entry of every group; on failure return `none` (the
handler sets the error message `参数值不能为空且必须是数字` and
returns without touching any text); on success convert every group's
entries to numbers and assign them to each field of the group. -/
def handleSaveModel (parameterGroups : List (String × List String))
    (groupReplacements : List (String × List (Nat × String))) :
    Option (List (String × List (Nat × Rat))) :=
  if groupReplacements.all (fun g => g.2.all (fun e => validEntryValue e.2)) then
    some (parameterGroups.foldl (fun acc p =>
      p.2.foldl (fun acc2 fn =>
        setAssocStr acc2 fn
          (((lookupAssocStr groupReplacements p.1).getD []).map
            (fun e => (e.1, (jsNumber e.2).getD 0)))) acc) [])
  else none

/-- Text content of the record's fields under edit, keyed by field
name: the part of the host record that `replaceParameters` reads and
writes. -/
structure EditSession where
  fieldsText : List (String × String)
deriving DecidableEq

/-- Apply accepted field replacements to the session's texts (the apply
step of `replaceParameters`, lines 819–844, restricted to text cells
addressed by field name). -/
def applyReplacementsAll (repl : List (String × List (Nat × Rat)))
    (fs : List (String × String)) : List (String × String) :=
  fs.map (fun p =>
    match lookupAssocStr repl p.1 with
    | some entries => (p.1, applyEntriesStr entries p.2)
    | none => p)

/-- One save attempt: validation, then either a reported error with the
session untouched, or the applied replacements. -/
def saveAttempt (parameterGroups : List (String × List String))
    (groupReplacements : List (String × List (Nat × String)))
    (st : EditSession) : EditSession × Option String :=
  match handleSaveModel parameterGroups groupReplacements with
  | none => (st, some "参数值不能为空且必须是数字")
  | some repl => (EditSession.mk (applyReplacementsAll repl st.fieldsText), none)

/-- Boolean occurrence test: the pattern appears as a contiguous
sublist of the text. -/
def occursIn (pat : List Char) : List Char → Bool
  | [] => pat.isEmpty
  | c :: rest => leadsWith pat (c :: rest) || occursIn pat rest

/-- Invariant of the DFS stack: its entries form a step-chain whose
most recent entry steps to the node currently being visited. -/
def stackChain (m : List (Rat × Rat)) : List Rat → Rat → Prop
  | [], _ => True
  | s :: rest, x => stepF m s = some x ∧ stackChain m rest s

/-- Nodes of the map not yet visited: the DFS recursion measure. -/
def countNot (m : List (Rat × Rat)) (v : List Rat) : Nat :=
  ((allNodes m).filter (fun y => decide (y ∉ v))).length

theorem sortNat_sorted (l : List Nat) : (sortNat l).Sorted (fun a b => a ≤ b) :=
  List.sorted_insertionSort _ l

theorem sortNat_perm (l : List Nat) : (sortNat l).Perm l :=
  List.perm_insertionSort _ l

theorem sortNat_eq_of_perm {l₁ l₂ : List Nat} (h : l₁.Perm l₂) : sortNat l₁ = sortNat l₂ :=
  List.eq_of_perm_of_sorted (((sortNat_perm l₁).trans h).trans (sortNat_perm l₂).symm)
    (sortNat_sorted l₁) (sortNat_sorted l₂)

/-- C7: for every text cell value the Token Extractor returns exactly
the integers occurring inside brace-digit patterns, sorted ascending
with duplicates preserved (the result is a permutation of the raw
matches), so the result is invariant under any reordering of the
tokens in the input; extracting from `{3}{1}{2}` yields `[1, 2, 3]`. -/
theorem extractParameters_spec :
    (∀ s : String, (extractParameters s).Sorted (fun a b => a ≤ b) ∧
      (extractParameters s).Perm (extractTokens s)) ∧
    (∀ s t : String, (extractTokens s).Perm (extractTokens t) →
      extractParameters s = extractParameters t) ∧
    extractParameters ("{3}{1}{2}") = [1, 2, 3] := by
  refine ⟨fun s => ⟨sortNat_sorted _, sortNat_perm _⟩, fun s t h => sortNat_eq_of_perm h, ?_⟩
  decide

/-- Witness for C7 at a concrete pair of reordered inputs. -/
theorem extractParameters_spec_witness :
    (extractTokens ("{3}{1}{2}")).Perm (extractTokens ("{1}{2}{3}")) ∧
    extractParameters ("{3}{1}{2}") = extractParameters ("{1}{2}{3}") :=
  ⟨by decide, extractParameters_spec.2.1 _ _ (by decide)⟩

/-- C8: whenever a selected non-baseline field's token list is a
permutation of the baseline field's token list, the comparison the
source performs at lines 616–619 (equality of the sorted copies)
reports no discrepancy for that field. `paramsDiffer` is exactly the
predicate `compareRecord` filters with. -/
theorem comparatorIgnoresOrder :
    ∀ b c : List Nat, b.Perm c → paramsDiffer b c = false := by
  intro b c h
  simp [paramsDiffer, sortNat_eq_of_perm h]

/-- Witness for C8 at the spec's example `[1,2]` versus `[2,1]`. -/
theorem comparatorIgnoresOrder_witness :
    ([1, 2] : List Nat).Perm [2, 1] ∧ paramsDiffer [1, 2] [2, 1] = false :=
  ⟨by decide, comparatorIgnoresOrder _ _ (by decide)⟩

/-- C9: when the host fetch collaborator fails at any point during a
batch run, the failure is caught at the operation boundary and turned
into a user-visible message, the in-flight flag is cleared, and the
published comparison list is exactly the previous one — the records
aggregated in `pages` before the failure never reach the published
result, whatever they were. -/
theorem hostFailure_discards_partial :
    ∀ (sel : List String) (tf : List TableField) (ml : List FieldMeta)
      (pages : List (List RecordData)) (e : String) (st : AppState),
      (compareAllRecordsRun sel tf ml pages (some e) st).comparisons = st.comparisons ∧
      (compareAllRecordsRun sel tf ml pages (some e) st).floatingMessage = "比较出错: " ++ e ∧
      (compareAllRecordsRun sel tf ml pages (some e) st).isComparing = false :=
  fun _ _ _ _ _ _ => ⟨rfl, rfl, rfl⟩

theorem compareRecord_empty_selection (tf : List TableField) (ml : List FieldMeta)
    (r : RecordData) : compareRecord [] tf ml r = some none := by
  unfold compareRecord
  cases h : extractParametersFromRecord r tf ml with
  | nil => rfl
  | cons b rest =>
    cases rest with
    | nil => rfl
    | cons x xs => simp

theorem compareAllPure_empty_selection (tf : List TableField) (ml : List FieldMeta) :
    ∀ rs : List RecordData, compareAllPure [] tf ml rs = some [] := by
  intro rs
  induction rs with
  | nil => rfl
  | cons r rest ih => simp [compareAllPure, compareRecord_empty_selection, ih]

/-- C10: with an empty selected-field set, a batch run over any
non-empty record list reports no inconsistent records: the pure
aggregate is empty and the published comparison list becomes empty. -/
theorem emptySelection_no_results :
    ∀ (tf : List TableField) (ml : List FieldMeta) (pages : List (List RecordData))
      (st : AppState), pages.flatten ≠ [] →
      compareAllPure [] tf ml pages.flatten = some [] ∧
      (compareAllRecordsRun [] tf ml pages none st).comparisons = [] := by
  intro tf ml pages st h
  refine ⟨compareAllPure_empty_selection tf ml _, ?_⟩
  unfold compareAllRecordsRun
  simp [h, compareAllPure_empty_selection]

/-- Witness for C10 at a one-record page list. -/
theorem emptySelection_no_results_witness :
    ([[RecordData.mk "r" []]] : List (List RecordData)).flatten ≠ [] ∧
    (compareAllRecordsRun [] [] [] [[RecordData.mk "r" []]] none
      (AppState.mk [] "" false)).comparisons = [] :=
  ⟨by decide, (emptySelection_no_results [] [] [[RecordData.mk "r" []]]
    (AppState.mk [] "" false) (by decide)).2⟩

/-- Counterexample to C4 as stated: the save path accepts values that
do not resolve to integers, and a whitespace-only entry is silently
coerced to zero. With the entry `1 ↦ " "` the attempt is not rejected,
the text is mutated (token 1 becomes 0), and the coerced value is `0`;
and with the entry `1 ↦ "1.5"` validation accepts a value whose number
is not an integer. -/
theorem handleSave_claim_counterexample :
    (saveAttempt [("1,2", ["F"])] [("1,2", [(1, " "), (2, "2")])]
        (EditSession.mk [("F", "{1}{2}")])).2 = none ∧
    (saveAttempt [("1,2", ["F"])] [("1,2", [(1, " "), (2, "2")])]
        (EditSession.mk [("F", "{1}{2}")])).1 = EditSession.mk [("F", "{0}{2}")] ∧
    jsNumber (" ") = some 0 ∧
    handleSaveModel [("1", ["F"])] [("1", [(1, "1.5")])] = some [("F", [(1, mkRat 3 2)])] ∧
    (mkRat 3 2).den ≠ 1 := by
  decide

/-- C4 as amended: the save is rejected with the descriptive message,
and the session text left byte-for-byte unchanged, exactly when some
entry is the empty string or coerces to NaN; when every entry is a
non-empty numeric string the save proceeds (values are used as the
numbers they coerce to, so whitespace-only entries pass as `0` and
non-integral numerics are accepted). -/
theorem handleSave_validation :
    ∀ (pg : List (String × List String)) (gr : List (String × List (Nat × String)))
      (st : EditSession),
      ((∃ g ∈ gr, ∃ e ∈ g.2, e.2 = "" ∨ jsNumber e.2 = none) →
        saveAttempt pg gr st = (st, some "参数值不能为空且必须是数字")) ∧
      ((∀ g ∈ gr, ∀ e ∈ g.2, e.2 ≠ "" ∧ (jsNumber e.2).isSome) →
        (saveAttempt pg gr st).2 = none) := by
  intro pg gr st
  constructor
  · rintro ⟨g, hg, e, he, hbad⟩
    have hall : ¬(gr.all (fun g => g.2.all (fun e => validEntryValue e.2)) = true) := by
      simp only [List.all_eq_true]
      intro h
      have hv := h g hg e he
      rcases hbad with h1 | h1 <;> simp [validEntryValue, h1] at hv
    simp [saveAttempt, handleSaveModel, hall]
  · intro hv
    have hall : gr.all (fun g => g.2.all (fun e => validEntryValue e.2)) = true := by
      simp only [List.all_eq_true]
      intro g hg e he
      have h2 := hv g hg e he
      simp [validEntryValue, h2.1, Option.isNone_iff_eq_none]
      exact h2.2
    simp [saveAttempt, handleSaveModel, hall]

/-- Witness for the amended C4 at a concrete non-numeric entry. -/
theorem handleSave_validation_witness :
    saveAttempt [] [("1", [((1 : Nat), "abc")])] (EditSession.mk [("F", "t")]) =
      (EditSession.mk [("F", "t")], some "参数值不能为空且必须是数字") :=
  (handleSave_validation [] [("1", [(1, "abc")])] (EditSession.mk [("F", "t")])).1
    ⟨("1", [(1, "abc")]), by decide, (1, "abc"), by decide, Or.inr (by decide)⟩

theorem chainWhile_two_cycle_none :
    ∀ (fuel : Nat) (chain : List Rat),
      chainWhile [((1 : Rat), 2), ((2 : Rat), 1)] [] chain 1 fuel = none ∧
      chainWhile [((1 : Rat), 2), ((2 : Rat), 1)] [] chain 2 fuel = none := by
  intro fuel
  induction fuel with
  | zero => exact fun chain => ⟨rfl, rfl⟩
  | succ f ih =>
    intro chain
    have h1 : mlookup [((1 : Rat), 2), ((2 : Rat), 1)] 1 = some 2 := by decide
    have h2 : mlookup [((1 : Rat), 2), ((2 : Rat), 1)] 2 = some 1 := by decide
    constructor
    · simp only [chainWhile, h1]
      simp only [List.not_mem_nil, if_false]
      exact (ih (chain ++ [1])).2
    · simp only [chainWhile, h2]
      simp only [List.not_mem_nil, if_false]
      exact (ih (chain ++ [2])).1

theorem buildChains_two_cycle_none :
    ∀ fuel : Nat,
      buildChains (buildMapNe [(1, "2"), (2, "1")]) (buildMapNe [(1, "2"), (2, "1")])
        [] [] fuel = none := by
  intro fuel
  have hm : buildMapNe [(1, "2"), (2, "1")] = [((1 : Rat), 2), ((2 : Rat), 1)] := by decide
  rw [hm]
  have h := (chainWhile_two_cycle_none fuel [1]).2
  simp [buildChains, h]

/-- C1 (code bug): the spec requires the Resolver to terminate on a
detected cycle, return the collapsed mapping and flag the auto-fix; on
the cyclic mapping `{1 ↦ 2, 2 ↦ 1}` the source's fix phase instead
never terminates — `processed` only gains members after the
chain-building `while` loop completes, so inside a true cycle the loop
condition never fails. The embedded resolver returns `none` (still
running) for every fuel. -/
theorem detectAndFix_cycle_diverges :
    ∀ fuel : Nat, detectAndFixGroup [(1, "2"), (2, "1")] fuel = none := by
  intro fuel
  have hd : detectCircularGroup [(1, "2"), (2, "1")] = some true := by decide
  simp [detectAndFixGroup, hd, buildChains_two_cycle_none]

/-- C2 (code bug): on the 2-cycle `{1 ↦ 2, 2 ↦ 1}` the detection phase
does report a cycle, but no fixed mapping is ever produced: the
chain-collection loop of the fix phase is still running after any
number of iterations, so there is no resolved mapping whose application
could be idempotent. -/
theorem resolver_two_cycle_no_result :
    detectCircularGroup [(1, "2"), (2, "1")] = some true ∧
    ∀ fuel : Nat,
      buildChains (buildMapNe [(1, "2"), (2, "1")]) (buildMapNe [(1, "2"), (2, "1")])
        [] [] fuel = none :=
  ⟨by decide, buildChains_two_cycle_none⟩

theorem natDigitsLE_lt : ∀ (fuel n : Nat), ∀ d ∈ natDigitsLE fuel n, d < 10 := by
  intro fuel
  induction fuel with
  | zero => intro n d hd; simp [natDigitsLE] at hd
  | succ f ih =>
    intro n d hd
    by_cases h : n < 10
    · simp [natDigitsLE, h] at hd; omega
    · simp only [natDigitsLE, if_neg h, List.mem_cons] at hd
      rcases hd with h1 | h1
      · subst h1; exact Nat.mod_lt _ (by norm_num)
      · exact ih _ _ h1

theorem fromLE_natDigitsLE : ∀ (fuel n : Nat), n < fuel → fromLE (natDigitsLE fuel n) = n := by
  intro fuel
  induction fuel with
  | zero => intro n h; omega
  | succ f ih =>
    intro n h
    by_cases h10 : n < 10
    · simp [natDigitsLE, h10, fromLE]
    · have hn : 0 < n := by omega
      have hdiv : n / 10 < f := by
        have := Nat.div_lt_self hn (show 1 < 10 by norm_num)
        omega
      simp only [natDigitsLE, if_neg h10, fromLE, ih _ hdiv]
      omega

theorem charOfDigit_toNat {d : Nat} (h : d < 10) : (Char.ofNat (d + 48)).toNat = d + 48 := by
  interval_cases d <;> decide

theorem map_digitChar_inj :
    ∀ (l1 l2 : List Nat), (∀ d ∈ l1, d < 10) → (∀ d ∈ l2, d < 10) →
      l1.map (fun d => Char.ofNat (d + 48)) = l2.map (fun d => Char.ofNat (d + 48)) →
      l1 = l2 := by
  intro l1
  induction l1 with
  | nil =>
    intro l2 _ _ h
    cases l2 with
    | nil => rfl
    | cons y ys => simp at h
  | cons x xs ih =>
    intro l2 h1 h2 h
    cases l2 with
    | nil => simp at h
    | cons y ys =>
      simp only [List.map_cons, List.cons.injEq] at h
      have hx : x < 10 := h1 x (by simp)
      have hy : y < 10 := h2 y (by simp)
      have hxy : x = y := by
        have hc := congrArg Char.toNat h.1
        rw [charOfDigit_toNat hx, charOfDigit_toNat hy] at hc
        omega
      rw [hxy, ih ys (fun d hd => h1 d (by simp [hd])) (fun d hd => h2 d (by simp [hd])) h.2]

theorem natDigits_inj {a b : Nat} (h : natDigits a = natDigits b) : a = b := by
  unfold natDigits at h
  have h1 := congrArg List.reverse h
  simp only [List.reverse_reverse] at h1
  have h2 : natDigitsLE (a + 1) a = natDigitsLE (b + 1) b :=
    map_digitChar_inj _ _ (natDigitsLE_lt _ _) (natDigitsLE_lt _ _) h1
  have ha := fromLE_natDigitsLE (a + 1) a (by omega)
  have hb := fromLE_natDigitsLE (b + 1) b (by omega)
  rw [h2, hb] at ha
  omega

theorem natDigits_isDigit (n : Nat) : ∀ c ∈ natDigits n, c.isDigit = true := by
  intro c hc
  unfold natDigits at hc
  rw [List.mem_reverse, List.mem_map] at hc
  obtain ⟨d, hd, rfl⟩ := hc
  have := natDigitsLE_lt (n + 1) n d hd
  interval_cases d <;> decide

theorem natDigits_ne_nil (n : Nat) : natDigits n ≠ [] := by
  unfold natDigits
  by_cases h : n < 10 <;> simp [natDigitsLE, h]

theorem isDigit_ne_openBrace {c : Char} (h : c.isDigit = true) : c ≠ '{' := by
  rintro rfl
  exact absurd h (by decide)

theorem isDigit_ne_closeBrace {c : Char} (h : c.isDigit = true) : c ≠ '}' := by
  rintro rfl
  exact absurd h (by decide)

theorem tokN_length_pos (o : Nat) : 0 < (tokN o).length := by
  unfold tokN; simp

theorem tokN_ne_nil (o : Nat) : tokN o ≠ [] := by
  unfold tokN; simp

theorem tokN_getElem_zero (o : Nat) (h : 0 < (tokN o).length) : (tokN o)[0] = '{' := rfl

theorem tokN_getElem_ne_brace (k : Nat) {i : Nat} (hi : i < (tokN k).length)
    (h1 : 1 ≤ i) : (tokN k)[i] ≠ '{' := by
  unfold tokN at hi ⊢
  cases i with
  | zero => omega
  | succ j =>
    have hj : j < (natDigits k ++ ['}']).length := by
      simpa using hi
    have hmem : (natDigits k ++ ['}'])[j] ∈ natDigits k ++ ['}'] := List.getElem_mem hj
    rcases List.mem_append.mp hmem with hm | hm
    · simpa using isDigit_ne_openBrace (natDigits_isDigit k _ hm)
    · simp only [List.mem_singleton] at hm
      simp only [List.getElem_cons_succ]
      rw [hm]
      decide

theorem leadsWith_append (p b : List Char) : leadsWith p (p ++ b) = true := by
  induction p with
  | nil => rfl
  | cons x xs ih => simp [leadsWith, ih]

theorem leadsWith_decomp : ∀ (p t : List Char), leadsWith p t = true → t = p ++ t.drop p.length := by
  intro p
  induction p with
  | nil => intro t _; simp
  | cons x xs ih =>
    intro t h
    cases t with
    | nil => simp [leadsWith] at h
    | cons c cs =>
      simp only [leadsWith, Bool.and_eq_true, decide_eq_true_eq] at h
      have h2 := ih cs h.2
      simp only [List.length_cons, List.drop_succ_cons, List.cons_append, List.cons.injEq]
      exact ⟨h.1.symm, h2⟩

theorem occursIn_decomp : ∀ (pat t : List Char), occursIn pat t = true →
    ∃ a b, t = a ++ (pat ++ b) := by
  intro pat t
  induction t with
  | nil =>
    intro h
    simp only [occursIn, List.isEmpty_iff] at h
    exact ⟨[], [], by simp [h]⟩
  | cons c rest ih =>
    intro h
    simp only [occursIn, Bool.or_eq_true] at h
    rcases h with h | h
    · exact ⟨[], (c :: rest).drop pat.length, leadsWith_decomp _ _ h⟩
    · obtain ⟨a, b, hab⟩ := ih h
      exact ⟨c :: a, b, by simp [hab]⟩

theorem replaceAux_skip (pat rep : List Char) :
    ∀ (t : List Char) (k : Nat), replaceAux pat rep t k = replaceSub pat rep (t.drop k) := by
  intro t
  induction t with
  | nil => intro k; cases k <;> rfl
  | cons c rest ih =>
    intro k
    cases k with
    | zero => rfl
    | succ j =>
      show replaceAux pat rep rest j = _
      rw [ih j, List.drop_succ_cons]

theorem replaceSub_no_occur (pat rep : List Char) :
    ∀ t : List Char, occursIn pat t = false → replaceSub pat rep t = t := by
  intro t
  induction t with
  | nil => intro _; rfl
  | cons c rest ih =>
    intro h
    simp only [occursIn, Bool.or_eq_false_iff] at h
    show replaceAux pat rep (c :: rest) 0 = c :: rest
    rw [replaceAux]
    rw [h.1]
    simp only [Bool.and_false, Bool.false_eq_true, if_false]
    rw [show replaceAux pat rep rest 0 = replaceSub pat rep rest from rfl, ih h.2]

theorem replaceSub_head_match (pat rep b : List Char) (hp : pat ≠ []) :
    replaceSub pat rep (pat ++ b) = rep ++ replaceSub pat rep b := by
  cases pat with
  | nil => exact absurd rfl hp
  | cons x xs =>
    show replaceAux (x :: xs) rep ((x :: xs) ++ b) 0 = _
    rw [List.cons_append, replaceAux]
    have hl : leadsWith (x :: xs) (x :: (xs ++ b)) = true := by
      rw [← List.cons_append]; exact leadsWith_append _ _
    rw [hl]
    simp only [List.isEmpty_cons, Bool.not_false, Bool.and_true, if_true]
    rw [replaceAux_skip]
    have : (xs ++ b).drop ((x :: xs).length - 1) = b := by
      simp only [List.length_cons, Nat.add_sub_cancel]
      exact List.drop_left xs b
    rw [this]


theorem tokN_tail_no_openBrace (k : Nat) : '{' ∉ natDigits k ++ ['}'] := by
  intro hmem
  rcases List.mem_append.mp hmem with hm | hm
  · exact isDigit_ne_openBrace (natDigits_isDigit k _ hm) rfl
  · simp at hm

theorem token_align (o : Nat) (a s r : List Char) (ha : a ≠ [])
    (heq : a ++ (tokN o ++ s) = tokN o ++ r) : ∃ a2, a = tokN o ++ a2 := by
  have htake : tokN o = (a ++ (tokN o ++ s)).take (tokN o).length := by
    rw [heq, List.take_left]
  rcases Nat.lt_or_ge a.length (tokN o).length with hlt | hge
  · exfalso
    obtain ⟨j, hj⟩ : ∃ j, (tokN o).length = a.length + (j + 1) :=
      ⟨(tokN o).length - a.length - 1, by omega⟩
    have htk : (a ++ (tokN o ++ s)).take (tokN o).length = a ++ (tokN o ++ s).take (j + 1) := by
      rw [hj, List.take_append]
    have hts : (tokN o ++ s).take (j + 1) = '{' :: (natDigits o ++ ['}']).take j := by
      rw [List.take_append_of_le_length (by omega : j + 1 ≤ (tokN o).length)]
      rfl
    rw [htk, hts] at htake
    cases a with
    | nil => exact absurd rfl ha
    | cons c a2 =>
      have htake2 : ('{' : Char) :: (natDigits o ++ ['}']) =
          c :: (a2 ++ '{' :: (natDigits o ++ ['}']).take j) := htake
      rw [List.cons.injEq] at htake2
      exact tokN_tail_no_openBrace o (by
        rw [htake2.2]
        exact List.mem_append.mpr (Or.inr (List.mem_cons_self _ _)))
  · have ht : (a ++ (tokN o ++ s)).take (tokN o).length = a.take (tokN o).length :=
      List.take_append_of_le_length hge
    rw [ht] at htake
    refine ⟨a.drop (tokN o).length, ?_⟩
    conv_lhs => rw [← List.take_append_drop (tokN o).length a]
    rw [← htake]

theorem replaceSub_token_append (o : Nat) (rep : List Char) :
    ∀ (a b : List Char), occursIn (tokN o) a = false →
      replaceSub (tokN o) rep (a ++ (tokN o ++ b)) =
        a ++ (rep ++ replaceSub (tokN o) rep b) := by
  intro a
  induction a with
  | nil =>
    intro b _
    simp only [List.nil_append]
    exact replaceSub_head_match _ _ _ (tokN_ne_nil o)
  | cons c a2 ih =>
    intro b ha
    simp only [occursIn, Bool.or_eq_false_iff] at ha
    have hnl : leadsWith (tokN o) ((c :: a2) ++ (tokN o ++ b)) = false := by
      by_contra hcon
      rw [Bool.not_eq_false] at hcon
      have hdec := leadsWith_decomp _ _ hcon
      obtain ⟨a3, ha3⟩ := token_align o (c :: a2) b _ (by simp) hdec
      have hlw : leadsWith (tokN o) (c :: a2) = true := by
        rw [ha3]; exact leadsWith_append _ _
      rw [hlw] at ha
      exact absurd ha.1 (by simp)
    show replaceAux (tokN o) rep (c :: (a2 ++ (tokN o ++ b))) 0 = _
    rw [replaceAux, show c :: (a2 ++ (tokN o ++ b)) = (c :: a2) ++ (tokN o ++ b) from rfl, hnl]
    simp only [Bool.and_false, Bool.false_eq_true, if_false]
    have hrec : replaceAux (tokN o) rep (a2 ++ (tokN o ++ b)) 0 =
        a2 ++ (rep ++ replaceSub (tokN o) rep b) := ih b ha.2
    rw [hrec]
    rfl

theorem digits_sep_inj : ∀ (xs ys u v : List Char),
    (∀ c ∈ xs, c.isDigit = true) → (∀ c ∈ ys, c.isDigit = true) →
    xs ++ '}' :: u = ys ++ '}' :: v → xs = ys ∧ u = v := by
  intro xs
  induction xs with
  | nil =>
    intro ys u v _ hy h
    cases ys with
    | nil => simp at h; exact ⟨rfl, h⟩
    | cons y ys2 =>
      simp only [List.nil_append, List.cons_append, List.cons.injEq] at h
      have hd := hy y (by simp)
      rw [← h.1] at hd
      exact absurd hd (by decide)
  | cons x xs2 ih =>
    intro ys u v hx hy h
    cases ys with
    | nil =>
      simp only [List.nil_append, List.cons_append, List.cons.injEq] at h
      have hd := hx x (by simp)
      rw [h.1] at hd
      exact absurd hd (by decide)
    | cons y ys2 =>
      simp only [List.cons_append, List.cons.injEq] at h
      obtain ⟨h1, h2⟩ := ih ys2 u v (fun d hd => hx d (by simp [hd]))
        (fun d hd => hy d (by simp [hd])) h.2
      exact ⟨by rw [h.1, h1], h2⟩

theorem tokN_not_occurs (o k : Nat) (h : o ≠ k) : occursIn (tokN o) (tokN k) = false := by
  by_contra hcon
  rw [Bool.not_eq_false] at hcon
  obtain ⟨a, b, hab⟩ := occursIn_decomp _ _ hcon
  cases a with
  | nil =>
    rw [List.nil_append] at hab
    unfold tokN at hab
    have hab2 : natDigits k ++ '}' :: ([] : List Char) = natDigits o ++ '}' :: b := by
      have h1 : ('{' : Char) :: (natDigits k ++ ['}']) =
          '{' :: ((natDigits o ++ ['}']) ++ b) := hab
      rw [List.cons.injEq, List.append_assoc] at h1
      exact h1.2
    obtain ⟨hd, _⟩ := digits_sep_inj _ _ _ _ (natDigits_isDigit k) (natDigits_isDigit o) hab2
    exact h (natDigits_inj hd).symm
  | cons c a2 =>
    unfold tokN at hab
    have hab2 : ('{' : Char) :: (natDigits k ++ ['}']) =
        c :: (a2 ++ ('{' :: ((natDigits o ++ ['}']) ++ b))) := hab
    rw [List.cons.injEq] at hab2
    exact tokN_tail_no_openBrace k (by
      rw [hab2.2]
      exact List.mem_append.mpr (Or.inr (List.mem_cons_self _ _)))

/-- C5: the apply step of `replaceParameters` replaces every literal
occurrence of the token of `original` by the token of `newValue` for
entries with `original ≠ newValue`, with exact token matching. The
conjuncts: replacement rewrites the leftmost occurrence in place and
leaves the text before it unchanged; a text without the token is
returned unchanged; the token of one value never occurs inside the
token of a different value (so a longer token such as `{12}` is never
altered when replacing token 1 — the concrete final conjunct); entries
with equal original and new value change nothing. The embedding is
pure, so the input text itself is never mutated. -/
theorem replaceParameters_apply_spec :
    (∀ (o : Nat) (n : Rat) (a b : List Char), occursIn (tokN o) a = false →
      applyOne o n (a ++ (tokN o ++ b)) = a ++ (tokR n ++ applyOne o n b)) ∧
    (∀ (o : Nat) (n : Rat) (t : List Char), occursIn (tokN o) t = false →
      applyOne o n t = t) ∧
    (∀ o k : Nat, o ≠ k → occursIn (tokN o) (tokN k) = false) ∧
    (∀ (o : Nat) (n : Rat) (t : List Char), ((o : Nat) : Rat) = n →
      applyEntries [(o, n)] t = t) ∧
    applyOne 1 9 (String.toList ("{12}")) = String.toList ("{12}") := by
  refine ⟨?_, ?_, tokN_not_occurs, ?_, by decide⟩
  · intro o n a b ha
    exact replaceSub_token_append o (tokR n) a b ha
  · intro o n t ht
    exact replaceSub_no_occur _ _ _ ht
  · intro o n t heq
    simp [applyEntries, heq]

/-- Witness for C5 at a concrete text around one token occurrence. -/
theorem replaceParameters_apply_witness :
    occursIn (tokN 1) (String.toList ("x")) = false ∧
    applyOne 1 2 (String.toList ("x") ++ (tokN 1 ++ String.toList ("y"))) =
      String.toList ("x") ++ (tokR 2 ++ applyOne 1 2 (String.toList ("y"))) :=
  ⟨by decide, replaceParameters_apply_spec.1 1 2 _ _ (by decide)⟩

theorem compareAllPure_some (sel : List String) (tf : List TableField) (ml : List FieldMeta) :
    ∀ (rs : List RecordData) (res : List RecordComparison),
      compareAllPure sel tf ml rs = some res →
      res = rs.filterMap (reportOf sel tf ml) ∧
      ∀ r ∈ rs, compareRecord sel tf ml r ≠ none := by
  intro rs
  induction rs with
  | nil =>
    intro res h
    simp only [compareAllPure, Option.some.injEq] at h
    subst h
    exact ⟨rfl, by simp⟩
  | cons r rest ih =>
    intro res h
    simp only [compareAllPure] at h
    cases hc : compareRecord sel tf ml r with
    | none => rw [hc] at h; exact absurd h (by simp)
    | some oc =>
      rw [hc] at h
      cases oc with
      | none =>
        obtain ⟨h1, h2⟩ := ih res h
        refine ⟨?_, ?_⟩
        · rw [h1, List.filterMap_cons]
          simp only [reportOf, hc]
        · intro r2 hr2
          rcases List.mem_cons.mp hr2 with hh | hm
          · rw [hh, hc]; simp
          · exact h2 r2 hm
      | some c =>
        cases hrest : compareAllPure sel tf ml rest with
        | none => rw [hrest] at h; exact absurd h (by simp)
        | some res2 =>
          rw [hrest] at h
          simp only [Option.map_some', Option.some.injEq] at h
          subst h
          obtain ⟨h1, h2⟩ := ih res2 hrest
          refine ⟨?_, ?_⟩
          · rw [h1, List.filterMap_cons]
            simp only [reportOf, hc]
          · intro r2 hr2
            rcases List.mem_cons.mp hr2 with hh | hm
            · rw [hh, hc]; simp
            · exact h2 r2 hm

theorem reportOf_spec (sel : List String) (tf : List TableField) (ml : List FieldMeta)
    (r : RecordData) (hne : compareRecord sel tf ml r ≠ none) :
    ((reportOf sel tf ml r).isSome = true ↔
      ∃ base rest, extractParametersFromRecord r tf ml = base :: rest ∧
        ∃ p ∈ rest, sel.contains p.fieldId = true ∧
          paramsDiffer base.parameters p.parameters = true) ∧
    (∀ c, reportOf sel tf ml r = some c →
      c.recordId = r.recordId ∧
      c.differences = ((extractParametersFromRecord r tf ml).filter
        (fun p => sel.contains p.fieldId)).map
        (fun p => DiffEntry.mk p.fieldName p.parameters)) := by
  unfold reportOf
  cases hp : extractParametersFromRecord r tf ml with
  | nil =>
    simp only [compareRecord, hp]
    constructor
    · simp
    · intro c hc; simp at hc
  | cons base rest =>
    cases rest with
    | nil =>
      simp only [compareRecord, hp]
      constructor
      · constructor
        · intro hs; simp at hs
        · rintro ⟨b2, r2, hbr, p, hp2, _⟩
          simp only [List.cons.injEq] at hbr
          rw [← hbr.2] at hp2
          simp at hp2
      · intro c hc; simp at hc
    | cons x xs =>
      simp only [compareRecord, hp]
      by_cases hd : ((x :: xs).filter
          (fun p => sel.contains p.fieldId && paramsDiffer base.parameters p.parameters)).isEmpty = true
      · rw [if_pos hd]
        constructor
        · constructor
          · intro hs; simp at hs
          · rintro ⟨b2, r2, hbr, p, hp2, hsel, hdif⟩
            simp only [List.cons.injEq] at hbr
            rw [List.isEmpty_iff, List.filter_eq_nil_iff] at hd
            rw [← hbr.2] at hp2
            rw [← hbr.1] at hdif
            exact absurd (by rw [hsel, hdif]; rfl) (hd p hp2)
        · intro c hc; simp at hc
      · rw [if_neg hd]
        cases hm : recordDisplayName ml r with
        | none =>
          exfalso
          apply hne
          simp only [compareRecord, hp]
          rw [if_neg hd, hm]
        | some nm =>
          constructor
          · constructor
            · intro _
              rw [List.isEmpty_iff] at hd
              obtain ⟨p, hpm⟩ := List.exists_mem_of_ne_nil _ hd
              have hpf := List.mem_filter.mp hpm
              have hps : sel.contains p.fieldId = true ∧
                  paramsDiffer base.parameters p.parameters = true := by
                simpa using hpf.2
              exact ⟨base, x :: xs, rfl, p, hpf.1, hps.1, hps.2⟩
            · intro _
              simp
          · intro c hc
            simp only [Option.some.injEq] at hc
            rw [← hc]
            exact ⟨rfl, rfl⟩

/-- C6: under a completed run, the published result is exactly the
per-record reports in input order, and a record is reported iff its
parameter list has at least 2 entries (at least 2 token-bearing fields)
and some selected non-baseline entry's sorted token multiset differs
from the baseline entry's; every report carries the record's id and the
full token lists of all its selected token-bearing fields, not only the
mismatching ones. -/
theorem compareAllRecords_membership :
    ∀ (sel : List String) (tf : List TableField) (ml : List FieldMeta)
      (records : List RecordData) (res : List RecordComparison),
      compareAllPure sel tf ml records = some res →
      res = records.filterMap (reportOf sel tf ml) ∧
      ∀ r ∈ records,
        ((reportOf sel tf ml r).isSome = true ↔
          2 ≤ (extractParametersFromRecord r tf ml).length ∧
          ∃ base rest, extractParametersFromRecord r tf ml = base :: rest ∧
            ∃ p ∈ rest, sel.contains p.fieldId = true ∧
              paramsDiffer base.parameters p.parameters = true) ∧
        (∀ c, reportOf sel tf ml r = some c →
          c.recordId = r.recordId ∧
          c.differences = ((extractParametersFromRecord r tf ml).filter
            (fun p => sel.contains p.fieldId)).map
            (fun p => DiffEntry.mk p.fieldName p.parameters)) := by
  intro sel tf ml records res h
  obtain ⟨h1, h2⟩ := compareAllPure_some sel tf ml records res h
  refine ⟨h1, fun r hr => ?_⟩
  obtain ⟨hiff, hcont⟩ := reportOf_spec sel tf ml r (h2 r hr)
  refine ⟨?_, hcont⟩
  rw [hiff]
  constructor
  · rintro ⟨base, rest, hbr, p, hp2, hsel, hdif⟩
    refine ⟨?_, base, rest, hbr, p, hp2, hsel, hdif⟩
    rw [hbr]
    have := List.length_pos_of_mem hp2
    simp only [List.length_cons]
    omega
  · rintro ⟨_, base, rest, hbr, hp3⟩
    exact ⟨base, rest, hbr, hp3⟩

/-- Witness for C6 at a concrete two-field record with one mismatch. -/
theorem compareAllRecords_membership_witness :
    2 ≤ (extractParametersFromRecord
        (RecordData.mk "r1" [("a", [Cell.text ("{1}{2}")]), ("b", [Cell.text ("{1}{3}")])])
        [TableField.mk "a", TableField.mk "b"]
        [FieldMeta.mk "a" "A", FieldMeta.mk "b" "B"]).length ∧
    ∃ base rest, extractParametersFromRecord
        (RecordData.mk "r1" [("a", [Cell.text ("{1}{2}")]), ("b", [Cell.text ("{1}{3}")])])
        [TableField.mk "a", TableField.mk "b"]
        [FieldMeta.mk "a" "A", FieldMeta.mk "b" "B"] = base :: rest ∧
      ∃ p ∈ rest, (["b"] : List String).contains p.fieldId = true ∧
        paramsDiffer base.parameters p.parameters = true := by
  have h := compareAllRecords_membership ["b"]
    [TableField.mk "a", TableField.mk "b"]
    [FieldMeta.mk "a" "A", FieldMeta.mk "b" "B"]
    [RecordData.mk "r1" [("a", [Cell.text ("{1}{2}")]), ("b", [Cell.text ("{1}{3}")])]]
    [RecordComparison.mk "r1" ("{1}{2}") [DiffEntry.mk "B" [1, 3]]]
    (by decide)
  exact ((h.2 _ (by simp)).1).mp (by decide)

theorem eraseFirst_cons_self (x : Rat) (l : List Rat) : eraseFirst (x :: l) x = l := by
  simp [eraseFirst]

theorem mlookup_mem {m : List (Rat × Rat)} {x y : Rat} (h : mlookup m x = some y) :
    (x, y) ∈ m := by
  induction m with
  | nil => simp [mlookup] at h
  | cons e rest ih =>
    obtain ⟨k, v⟩ := e
    simp only [mlookup] at h
    by_cases hk : k = x
    · rw [if_pos hk] at h
      simp only [Option.some.injEq] at h
      rw [← hk, ← h]
      exact List.mem_cons_self _ _
    · rw [if_neg hk] at h
      exact List.mem_cons_of_mem _ (ih h)

theorem mem_allNodes_left {m : List (Rat × Rat)} {x y : Rat} (h : (x, y) ∈ m) :
    x ∈ allNodes m :=
  List.mem_append.mpr (Or.inl (List.mem_map.mpr ⟨(x, y), h, rfl⟩))

theorem mem_allNodes_right {m : List (Rat × Rat)} {x y : Rat} (h : (x, y) ∈ m) :
    y ∈ allNodes m :=
  List.mem_append.mpr (Or.inr (List.mem_map.mpr ⟨(x, y), h, rfl⟩))

theorem stepF_some {m : List (Rat × Rat)} {x y : Rat} (h : stepF m x = some y) :
    mlookup m x = some y ∧ y ≠ x := by
  unfold stepF at h
  cases hl : mlookup m x with
  | none => rw [hl] at h; simp at h
  | some z =>
    rw [hl] at h
    have h2 : (if z = x then none else some z) = some y := h
    by_cases hz : z = x
    · rw [if_pos hz] at h2; simp at h2
    · rw [if_neg hz] at h2
      simp only [Option.some.injEq] at h2
      subst h2
      exact ⟨rfl, hz⟩

theorem stepF_of_mlookup {m : List (Rat × Rat)} {x y : Rat} (h1 : mlookup m x = some y)
    (h2 : y ≠ x) : stepF m x = some y := by
  unfold stepF
  rw [h1]
  show (if y = x then none else some y) = some y
  rw [if_neg h2]

theorem stepIter_add (m : List (Rat × Rat)) :
    ∀ (a b : Nat) (x : Rat), stepIter m (a + b) x =
      (stepIter m a x).bind (fun z => stepIter m b z) := by
  intro a
  induction a with
  | zero => intro b x; simp [stepIter]
  | succ a2 ih =>
    intro b x
    have hr : a2 + 1 + b = (a2 + b) + 1 := by omega
    rw [hr]
    simp only [stepIter]
    cases hs : stepF m x with
    | none => simp
    | some y => simp only [Option.some_bind]; exact ih b y

theorem stepIter_one (m : List (Rat × Rat)) (x : Rat) : stepIter m 1 x = stepF m x := by
  simp only [stepIter]
  cases stepF m x <;> rfl

theorem reaches_of_on_cycle {m : List (Rat × Rat)} {z : Rat} {k : Nat}
    (h : stepIter m (k + 1) z = some z) : reachesCycle m z :=
  ⟨0, z, rfl, k, h⟩

theorem reaches_stepF_isSome {m : List (Rat × Rat)} {x : Rat} (h : reachesCycle m x) :
    ∃ y, stepF m x = some y := by
  obtain ⟨j, z, hj, k, hk⟩ := h
  cases j with
  | zero =>
    simp only [stepIter, Option.some.injEq] at hj
    subst hj
    simp only [stepIter] at hk
    cases hs : stepF m x with
    | none => rw [hs] at hk; simp at hk
    | some y => exact ⟨y, rfl⟩
  | succ j2 =>
    simp only [stepIter] at hj
    cases hs : stepF m x with
    | none => rw [hs] at hj; simp at hj
    | some y => exact ⟨y, rfl⟩

theorem reaches_iff_step {m : List (Rat × Rat)} {x y : Rat} (h : stepF m x = some y) :
    reachesCycle m x ↔ reachesCycle m y := by
  constructor
  · rintro ⟨j, z, hj, k, hk⟩
    cases j with
    | zero =>
      simp only [stepIter, Option.some.injEq] at hj
      subst hj
      have hk2 : stepIter m k y = some x := by
        have hk3 := hk
        simp only [stepIter] at hk3
        rw [h] at hk3
        exact hk3
      exact ⟨k, x, hk2, k, hk⟩
    | succ j2 =>
      simp only [stepIter] at hj
      rw [h] at hj
      exact ⟨j2, z, hj, k, hk⟩
  · rintro ⟨j, z, hj, k, hk⟩
    refine ⟨j + 1, z, ?_, k, hk⟩
    simp only [stepIter]
    rw [h]
    exact hj

theorem not_reaches_of_no_step {m : List (Rat × Rat)} {x : Rat} (h : stepF m x = none) :
    ¬reachesCycle m x := by
  intro hr
  obtain ⟨y, hy⟩ := reaches_stepF_isSome hr
  rw [h] at hy
  simp at hy

theorem not_reaches_of_self_loop {m : List (Rat × Rat)} {x : Rat}
    (h : mlookup m x = some x) : ¬reachesCycle m x := by
  apply not_reaches_of_no_step
  unfold stepF
  rw [h]
  show (if x = x then none else some x) = none
  rw [if_pos rfl]

theorem hasCycleAux_succ (m : List (Rat × Rat)) (f : Nat) (s : Rat) (v st : List Rat) :
    hasCycleAux m (f + 1) s v st =
      if s ∈ st then some (true, v, st)
      else if s ∈ v then some (false, v, st)
      else
        match mlookup m s with
        | some next =>
          if next ≠ s then
            match hasCycleAux m f next (s :: v) (s :: st) with
            | none => none
            | some (true, v2, s2) => some (true, v2, s2)
            | some (false, v2, s2) => some (false, v2, eraseFirst s2 s)
          else some (false, s :: v, eraseFirst (s :: st) s)
        | none => some (false, s :: v, eraseFirst (s :: st) s) := rfl

theorem hasCycleAux_visited_mono (m : List (Rat × Rat)) :
    ∀ (fuel : Nat) (s : Rat) (v st : List Rat) (b : Bool) (v2 s2 : List Rat),
      hasCycleAux m fuel s v st = some (b, v2, s2) → ∀ x ∈ v, x ∈ v2 := by
  intro fuel
  induction fuel with
  | zero => intro s v st b v2 s2 h; exact absurd h (by simp [hasCycleAux])
  | succ f ih =>
    intro s v st b v2 s2 h
    rw [hasCycleAux_succ] at h
    by_cases h1 : s ∈ st
    · rw [if_pos h1] at h
      simp only [Option.some.injEq, Prod.mk.injEq] at h
      exact fun x hx => h.2.1 ▸ hx
    rw [if_neg h1] at h
    by_cases h2 : s ∈ v
    · rw [if_pos h2] at h
      simp only [Option.some.injEq, Prod.mk.injEq] at h
      exact fun x hx => h.2.1 ▸ hx
    rw [if_neg h2] at h
    cases hl : mlookup m s with
    | none =>
      rw [hl] at h
      have h3 : some ((false : Bool), s :: v, eraseFirst (s :: st) s) = some (b, v2, s2) := h
      simp only [Option.some.injEq, Prod.mk.injEq] at h3
      exact fun x hx => h3.2.1 ▸ List.mem_cons_of_mem s hx
    | some next =>
      rw [hl] at h
      by_cases h4 : next ≠ s
      · have h3 : (match hasCycleAux m f next (s :: v) (s :: st) with
          | none => none
          | some (true, v2, s2) => some (true, v2, s2)
          | some (false, v2, s2) => some (false, v2, eraseFirst s2 s)) = some (b, v2, s2) := by
          rw [← h]
          simp [h4]
        cases hin : hasCycleAux m f next (s :: v) (s :: st) with
        | none =>
          rw [hin] at h3
          exact absurd h3 (by simp)
        | some res3 =>
          obtain ⟨b3, v3, s3⟩ := res3
          rw [hin] at h3
          have hmono := ih next (s :: v) (s :: st) b3 v3 s3 hin
          cases b3
          · have h5 : some ((false : Bool), v3, eraseFirst s3 s) = some (b, v2, s2) := h3
            simp only [Option.some.injEq, Prod.mk.injEq] at h5
            exact fun x hx => h5.2.1 ▸ hmono x (List.mem_cons_of_mem s hx)
          · have h5 : some ((true : Bool), v3, s3) = some (b, v2, s2) := h3
            simp only [Option.some.injEq, Prod.mk.injEq] at h5
            exact fun x hx => h5.2.1 ▸ hmono x (List.mem_cons_of_mem s hx)
      · have h3 : some ((false : Bool), s :: v, eraseFirst (s :: st) s) = some (b, v2, s2) := by
          rw [← h]
          simp [h4]
        simp only [Option.some.injEq, Prod.mk.injEq] at h3
        exact fun x hx => h3.2.1 ▸ List.mem_cons_of_mem s hx

theorem hasCycleAux_false_start_mem (m : List (Rat × Rat)) :
    ∀ (fuel : Nat) (s : Rat) (v st : List Rat) (v2 s2 : List Rat),
      hasCycleAux m fuel s v st = some (false, v2, s2) → s ∈ v2 := by
  intro fuel
  induction fuel with
  | zero => intro s v st v2 s2 h; exact absurd h (by simp [hasCycleAux])
  | succ f ih =>
    intro s v st v2 s2 h
    rw [hasCycleAux_succ] at h
    by_cases h1 : s ∈ st
    · rw [if_pos h1] at h
      simp at h
    rw [if_neg h1] at h
    by_cases h2 : s ∈ v
    · rw [if_pos h2] at h
      simp only [Option.some.injEq, Prod.mk.injEq] at h
      exact h.2.1 ▸ h2
    rw [if_neg h2] at h
    cases hl : mlookup m s with
    | none =>
      rw [hl] at h
      have h3 : some ((false : Bool), s :: v, eraseFirst (s :: st) s) = some (false, v2, s2) := h
      simp only [Option.some.injEq, Prod.mk.injEq] at h3
      exact h3.2.1 ▸ List.mem_cons_self s v
    | some next =>
      rw [hl] at h
      by_cases h4 : next ≠ s
      · have h3 : (match hasCycleAux m f next (s :: v) (s :: st) with
          | none => none
          | some (true, v2, s2) => some (true, v2, s2)
          | some (false, v2, s2) => some (false, v2, eraseFirst s2 s)) = some (false, v2, s2) := by
          rw [← h]
          simp [h4]
        cases hin : hasCycleAux m f next (s :: v) (s :: st) with
        | none => rw [hin] at h3; exact absurd h3 (by simp)
        | some res3 =>
          obtain ⟨b3, v3, s3⟩ := res3
          rw [hin] at h3
          cases b3
          · have h5 : some ((false : Bool), v3, eraseFirst s3 s) = some (false, v2, s2) := h3
            simp only [Option.some.injEq, Prod.mk.injEq] at h5
            have := hasCycleAux_visited_mono m f next (s :: v) (s :: st) false v3 s3 hin
            exact h5.2.1 ▸ this s (List.mem_cons_self s v)
          · have h5 : some ((true : Bool), v3, s3) = some (false, v2, s2) := h3
            simp at h5
      · have h3 : some ((false : Bool), s :: v, eraseFirst (s :: st) s) = some (false, v2, s2) := by
          rw [← h]
          simp [h4]
        simp only [Option.some.injEq, Prod.mk.injEq] at h3
        exact h3.2.1 ▸ List.mem_cons_self s v

theorem hasCycleAux_false_stack (m : List (Rat × Rat)) :
    ∀ (fuel : Nat) (s : Rat) (v st : List Rat) (v2 s2 : List Rat),
      hasCycleAux m fuel s v st = some (false, v2, s2) → s2 = st := by
  intro fuel
  induction fuel with
  | zero => intro s v st v2 s2 h; exact absurd h (by simp [hasCycleAux])
  | succ f ih =>
    intro s v st v2 s2 h
    rw [hasCycleAux_succ] at h
    by_cases h1 : s ∈ st
    · rw [if_pos h1] at h
      simp at h
    rw [if_neg h1] at h
    by_cases h2 : s ∈ v
    · rw [if_pos h2] at h
      simp only [Option.some.injEq, Prod.mk.injEq] at h
      exact h.2.2.symm
    rw [if_neg h2] at h
    cases hl : mlookup m s with
    | none =>
      rw [hl] at h
      have h3 : some ((false : Bool), s :: v, eraseFirst (s :: st) s) = some (false, v2, s2) := h
      simp only [Option.some.injEq, Prod.mk.injEq] at h3
      rw [← h3.2.2, eraseFirst_cons_self]
    | some next =>
      rw [hl] at h
      by_cases h4 : next ≠ s
      · have h3 : (match hasCycleAux m f next (s :: v) (s :: st) with
          | none => none
          | some (true, v2, s2) => some (true, v2, s2)
          | some (false, v2, s2) => some (false, v2, eraseFirst s2 s)) = some (false, v2, s2) := by
          rw [← h]
          simp [h4]
        cases hin : hasCycleAux m f next (s :: v) (s :: st) with
        | none => rw [hin] at h3; exact absurd h3 (by simp)
        | some res3 =>
          obtain ⟨b3, v3, s3⟩ := res3
          rw [hin] at h3
          cases b3
          · have h5 : some ((false : Bool), v3, eraseFirst s3 s) = some (false, v2, s2) := h3
            simp only [Option.some.injEq, Prod.mk.injEq] at h5
            have hs3 : s3 = s :: st := ih next (s :: v) (s :: st) v3 s3 hin
            rw [← h5.2.2, hs3, eraseFirst_cons_self]
          · have h5 : some ((true : Bool), v3, s3) = some (false, v2, s2) := h3
            simp at h5
      · have h3 : some ((false : Bool), s :: v, eraseFirst (s :: st) s) = some (false, v2, s2) := by
          rw [← h]
          simp [h4]
        simp only [Option.some.injEq, Prod.mk.injEq] at h3
        rw [← h3.2.2, eraseFirst_cons_self]

theorem stackChain_iter (m : List (Rat × Rat)) :
    ∀ (st : List Rat) (x : Rat), stackChain m st x →
      ∀ (j : Nat) (hj : j < st.length), stepIter m (j + 1) (st.get ⟨j, hj⟩) = some x := by
  intro st
  induction st with
  | nil => intro x _ j hj; simp at hj
  | cons s rest ih =>
    intro x hc j hj
    obtain ⟨h1, h2⟩ := hc
    cases j with
    | zero =>
      show stepIter m 1 s = some x
      rw [stepIter_one]
      exact h1
    | succ j2 =>
      have hj2 : j2 < rest.length := by simpa using hj
      have hrec := ih s h2 j2 hj2
      show stepIter m (j2 + 1 + 1) (rest.get ⟨j2, hj2⟩) = some x
      rw [stepIter_add m (j2 + 1) 1, hrec]
      simp only [Option.some_bind]
      rw [stepIter_one]
      exact h1

theorem stackChain_cycle (m : List (Rat × Rat)) {st : List Rat} {x : Rat}
    (hc : stackChain m st x) (hx : x ∈ st) : specCycle m := by
  obtain ⟨⟨j, hj⟩, hget⟩ := List.mem_iff_get.mp hx
  refine ⟨x, j, ?_⟩
  have := stackChain_iter m st x hc j hj
  rw [hget] at this
  exact this

theorem hasCycleAux_sound (m : List (Rat × Rat)) :
    ∀ (fuel : Nat) (s : Rat) (v st : List Rat) (v2 s2 : List Rat),
      stackChain m st s →
      hasCycleAux m fuel s v st = some (true, v2, s2) → specCycle m := by
  intro fuel
  induction fuel with
  | zero => intro s v st v2 s2 _ h; exact absurd h (by simp [hasCycleAux])
  | succ f ih =>
    intro s v st v2 s2 hc h
    rw [hasCycleAux_succ] at h
    by_cases h1 : s ∈ st
    · exact stackChain_cycle m hc h1
    rw [if_neg h1] at h
    by_cases h2 : s ∈ v
    · rw [if_pos h2] at h
      simp at h
    rw [if_neg h2] at h
    cases hl : mlookup m s with
    | none =>
      rw [hl] at h
      have h3 : some ((false : Bool), s :: v, eraseFirst (s :: st) s) =
          some (true, v2, s2) := h
      simp at h3
    | some next =>
      rw [hl] at h
      by_cases h4 : next ≠ s
      · have h3 : (match hasCycleAux m f next (s :: v) (s :: st) with
          | none => none
          | some (true, v2, s2) => some (true, v2, s2)
          | some (false, v2, s2) => some (false, v2, eraseFirst s2 s)) =
            some (true, v2, s2) := by
          rw [← h]
          simp [h4]
        cases hin : hasCycleAux m f next (s :: v) (s :: st) with
        | none => rw [hin] at h3; exact absurd h3 (by simp)
        | some res3 =>
          obtain ⟨b3, v3, s3⟩ := res3
          rw [hin] at h3
          cases b3
          · have h5 : some ((false : Bool), v3, eraseFirst s3 s) =
                some (true, v2, s2) := h3
            simp at h5
          · exact ih next (s :: v) (s :: st) v3 s3
              ⟨stepF_of_mlookup hl h4, hc⟩ hin
      · have h3 : some ((false : Bool), s :: v, eraseFirst (s :: st) s) =
            some (true, v2, s2) := by
          rw [← h]
          simp [h4]
        simp at h3

theorem stepF_none_of_mlookup_none {m : List (Rat × Rat)} {x : Rat}
    (h : mlookup m x = none) : stepF m x = none := by
  unfold stepF
  rw [h]

theorem hasCycleAux_safe (m : List (Rat × Rat)) :
    ∀ (fuel : Nat) (s : Rat) (v st : List Rat) (v2 s2 : List Rat),
      (∀ n ∈ v, n ∈ st ∨ ¬reachesCycle m n) →
      hasCycleAux m fuel s v st = some (false, v2, s2) →
      ∀ n ∈ v2, n ∈ st ∨ ¬reachesCycle m n := by
  intro fuel
  induction fuel with
  | zero => intro s v st v2 s2 _ h; exact absurd h (by simp [hasCycleAux])
  | succ f ih =>
    intro s v st v2 s2 hinv h
    rw [hasCycleAux_succ] at h
    by_cases h1 : s ∈ st
    · rw [if_pos h1] at h
      simp at h
    rw [if_neg h1] at h
    by_cases h2 : s ∈ v
    · rw [if_pos h2] at h
      simp only [Option.some.injEq, Prod.mk.injEq] at h
      exact fun n hn => hinv n (h.2.1 ▸ hn)
    rw [if_neg h2] at h
    cases hl : mlookup m s with
    | none =>
      rw [hl] at h
      have h3 : some ((false : Bool), s :: v, eraseFirst (s :: st) s) =
          some (false, v2, s2) := h
      simp only [Option.some.injEq, Prod.mk.injEq] at h3
      intro n hn
      rw [← h3.2.1] at hn
      rcases List.mem_cons.mp hn with hns | hnv
      · exact Or.inr (hns ▸ not_reaches_of_no_step (stepF_none_of_mlookup_none hl))
      · exact hinv n hnv
    | some next =>
      rw [hl] at h
      by_cases h4 : next ≠ s
      · have h3 : (match hasCycleAux m f next (s :: v) (s :: st) with
          | none => none
          | some (true, v2, s2) => some (true, v2, s2)
          | some (false, v2, s2) => some (false, v2, eraseFirst s2 s)) =
            some (false, v2, s2) := by
          rw [← h]
          simp [h4]
        cases hin : hasCycleAux m f next (s :: v) (s :: st) with
        | none => rw [hin] at h3; exact absurd h3 (by simp)
        | some res3 =>
          obtain ⟨b3, v3, s3⟩ := res3
          rw [hin] at h3
          cases b3
          · have h5 : some ((false : Bool), v3, eraseFirst s3 s) =
                some (false, v2, s2) := h3
            simp only [Option.some.injEq, Prod.mk.injEq] at h5
            have hinv2 : ∀ n ∈ s :: v, n ∈ s :: st ∨ ¬reachesCycle m n := by
              intro n hn
              rcases List.mem_cons.mp hn with hns | hnv
              · exact Or.inl (hns ▸ List.mem_cons_self s st)
              · rcases hinv n hnv with hst | hnr
                · exact Or.inl (List.mem_cons_of_mem s hst)
                · exact Or.inr hnr
            have hres := ih next (s :: v) (s :: st) v3 s3 hinv2 hin
            have hnextmem : next ∈ v3 :=
              hasCycleAux_false_start_mem m f next (s :: v) (s :: st) v3 s3 hin
            have hnotreach_s : ¬reachesCycle m s := by
              rcases hres next hnextmem with hns | hnr
              · rcases List.mem_cons.mp hns with hne | hnst
                · exact absurd hne h4
                · exfalso
                  cases f with
                  | zero => exact absurd hin (by simp [hasCycleAux])
                  | succ f2 =>
                    rw [hasCycleAux_succ] at hin
                    rw [if_pos (List.mem_cons_of_mem s hnst)] at hin
                    simp at hin
              · intro hr
                exact hnr ((reaches_iff_step (stepF_of_mlookup hl h4)).mp hr)
            intro n hn
            rw [← h5.2.1] at hn
            rcases hres n hn with hns | hnr
            · rcases List.mem_cons.mp hns with hne | hnst
              · exact Or.inr (hne ▸ hnotreach_s)
              · exact Or.inl hnst
            · exact Or.inr hnr
          · have h5 : some ((true : Bool), v3, s3) = some (false, v2, s2) := h3
            simp at h5
      · have h3 : some ((false : Bool), s :: v, eraseFirst (s :: st) s) =
            some (false, v2, s2) := by
          rw [← h]
          simp [h4]
        simp only [Option.some.injEq, Prod.mk.injEq] at h3
        rw [Ne, not_not] at h4
        intro n hn
        rw [← h3.2.1] at hn
        rcases List.mem_cons.mp hn with hns | hnv
        · exact Or.inr (hns ▸ not_reaches_of_self_loop (h4 ▸ hl))
        · exact hinv n hnv

theorem filter_length_mono {α : Type} (p q : α → Bool)
    (hpq : ∀ a, p a = true → q a = true) :
    ∀ l : List α, (l.filter p).length ≤ (l.filter q).length := by
  intro l
  induction l with
  | nil => simp
  | cons x xs ih =>
    simp only [List.filter_cons]
    by_cases hp : p x = true
    · rw [hp, hpq x hp]
      simpa using ih
    · rw [Bool.not_eq_true] at hp
      rw [hp]
      cases hq : q x
      · exact ih
      · simp only [List.length_cons]
        exact Nat.le_succ_of_le ih

theorem filter_notMem_cons_lt {l v : List Rat} {x : Rat} (hx : x ∈ l) (hnv : x ∉ v) :
    (l.filter (fun y => decide (y ∉ x :: v))).length <
      (l.filter (fun y => decide (y ∉ v))).length := by
  induction l with
  | nil => simp at hx
  | cons a l2 ih =>
    by_cases hax : a = x
    · subst hax
      rw [List.filter_cons_of_neg (by simp), List.filter_cons_of_pos (by simpa using hnv)]
      simp only [List.length_cons]
      have hmono := filter_length_mono (fun y => decide (y ∉ a :: v))
        (fun y => decide (y ∉ v)) (by
          intro b hb
          simp only [decide_eq_true_eq, List.mem_cons, not_or] at hb ⊢
          exact hb.2) l2
      omega
    · rcases List.mem_cons.mp hx with hh | hh
      · exact absurd hh.symm hax
      · have ihh := ih hh
        by_cases hav : a ∈ v
        · rw [List.filter_cons_of_neg (by simp [List.mem_cons, hav]),
            List.filter_cons_of_neg (by simp [hav])]
          exact ihh
        · rw [List.filter_cons_of_pos (by simp [List.mem_cons, hax, hav]),
            List.filter_cons_of_pos (by simpa using hav)]
          simp only [List.length_cons]
          omega

theorem countNot_lt (m : List (Rat × Rat)) (v : List Rat) {x : Rat}
    (hx : x ∈ allNodes m) (hnv : x ∉ v) : countNot m (x :: v) < countNot m v :=
  filter_notMem_cons_lt hx hnv

theorem countNot_le (m : List (Rat × Rat)) (v : List Rat) :
    countNot m v ≤ (allNodes m).length :=
  List.length_filter_le _ _

theorem hasCycleAux_isSome (m : List (Rat × Rat)) :
    ∀ (fuel : Nat) (s : Rat) (v st : List Rat),
      s ∈ allNodes m → countNot m v < fuel →
      (hasCycleAux m fuel s v st).isSome = true := by
  intro fuel
  induction fuel with
  | zero => intro s v st _ h; omega
  | succ f ih =>
    intro s v st hs hf
    rw [hasCycleAux_succ]
    by_cases h1 : s ∈ st
    · rw [if_pos h1]; rfl
    rw [if_neg h1]
    by_cases h2 : s ∈ v
    · rw [if_pos h2]; rfl
    rw [if_neg h2]
    cases hl : mlookup m s with
    | none => rfl
    | some next =>
      show (if next ≠ s then
          (match hasCycleAux m f next (s :: v) (s :: st) with
            | none => none
            | some (true, v2, s2) => some (true, v2, s2)
            | some (false, v2, s2) => some (false, v2, eraseFirst s2 s))
        else some (false, s :: v, eraseFirst (s :: st) s)).isSome = true
      by_cases h4 : next ≠ s
      · rw [if_pos h4]
        have hnode : next ∈ allNodes m := mem_allNodes_right (mlookup_mem hl)
        have hcount : countNot m (s :: v) < f := by
          have := countNot_lt m v hs h2
          omega
        have hsome := ih next (s :: v) (s :: st) hnode hcount
        cases hin : hasCycleAux m f next (s :: v) (s :: st) with
        | none => rw [hin] at hsome; simp at hsome
        | some res3 =>
          obtain ⟨b3, v3, s3⟩ := res3
          cases b3 <;> rfl
      · rw [if_neg h4]
        rfl

theorem hasCycleAux_complete (m : List (Rat × Rat)) :
    ∀ (fuel : Nat) (s : Rat) (v st : List Rat),
      reachesCycle m s →
      (∀ n ∈ v, n ∈ st ∨ ¬reachesCycle m n) →
      s ∈ allNodes m → countNot m v < fuel →
      ∃ v2 s2, hasCycleAux m fuel s v st = some (true, v2, s2) := by
  intro fuel
  induction fuel with
  | zero => intro s v st _ _ _ h; omega
  | succ f ih =>
    intro s v st hreach hinv hs hf
    rw [hasCycleAux_succ]
    by_cases h1 : s ∈ st
    · rw [if_pos h1]; exact ⟨v, st, rfl⟩
    rw [if_neg h1]
    by_cases h2 : s ∈ v
    · rcases hinv s h2 with hh | hh
      · exact absurd hh h1
      · exact absurd hreach hh
    rw [if_neg h2]
    obtain ⟨next, hstep⟩ := reaches_stepF_isSome hreach
    obtain ⟨hl, hne⟩ := stepF_some hstep
    rw [hl]
    show ∃ v2 s2, (if next ≠ s then
        (match hasCycleAux m f next (s :: v) (s :: st) with
          | none => none
          | some (true, v2, s2) => some (true, v2, s2)
          | some (false, v2, s2) => some (false, v2, eraseFirst s2 s))
      else some (false, s :: v, eraseFirst (s :: st) s)) = some (true, v2, s2)
    rw [if_pos hne]
    have hreach2 : reachesCycle m next := (reaches_iff_step hstep).mp hreach
    have hinv2 : ∀ n ∈ s :: v, n ∈ s :: st ∨ ¬reachesCycle m n := by
      intro n hn
      rcases List.mem_cons.mp hn with hns | hnv
      · exact Or.inl (hns ▸ List.mem_cons_self s st)
      · rcases hinv n hnv with hst | hnr
        · exact Or.inl (List.mem_cons_of_mem s hst)
        · exact Or.inr hnr
    have hnode : next ∈ allNodes m := mem_allNodes_right (mlookup_mem hl)
    have hcount : countNot m (s :: v) < f := by
      have := countNot_lt m v hs h2
      omega
    obtain ⟨v3, s3, hin⟩ := ih next (s :: v) (s :: st) hreach2 hinv2 hnode hcount
    rw [hin]
    exact ⟨v3, s3, rfl⟩

theorem detectLoop_sound (m : List (Rat × Rat)) :
    ∀ (entries : List (Rat × Rat)) (v : List Rat),
      detectLoop m entries v [] = some true → specCycle m := by
  intro entries
  induction entries with
  | nil => intro v h; simp [detectLoop] at h
  | cons e rest ih =>
    obtain ⟨o, r⟩ := e
    intro v h
    simp only [detectLoop] at h
    by_cases ho : o ≠ r
    · rw [if_pos ho] at h
      cases haux : hasCycleAux m (detectFuel m) o v [] with
      | none => rw [haux] at h; exact absurd h (by simp)
      | some res =>
        obtain ⟨b, v2, s2⟩ := res
        rw [haux] at h
        cases b
        · have h2 : detectLoop m rest v2 s2 = some true := h
          have hs2 : s2 = [] := hasCycleAux_false_stack m _ o v [] v2 s2 haux
          rw [hs2] at h2
          exact ih v2 h2
        · exact hasCycleAux_sound m _ o v [] v2 s2 trivial haux
    · rw [if_neg ho] at h
      exact ih v h

theorem detectLoop_isSome (m : List (Rat × Rat)) :
    ∀ (entries : List (Rat × Rat)) (v : List Rat),
      (∀ e ∈ entries, e ∈ m) → detectLoop m entries v [] ≠ none := by
  intro entries
  induction entries with
  | nil => intro v _; simp [detectLoop]
  | cons e rest ih =>
    obtain ⟨o, r⟩ := e
    intro v hmem
    by_cases ho : o ≠ r
    · have honode : o ∈ allNodes m :=
        mem_allNodes_left (hmem (o, r) (List.mem_cons_self _ _))
      have hcount : countNot m v < detectFuel m := by
        have := countNot_le m v
        unfold detectFuel
        omega
      have hsome := hasCycleAux_isSome m (detectFuel m) o v [] honode hcount
      simp only [detectLoop, if_pos ho]
      cases haux : hasCycleAux m (detectFuel m) o v [] with
      | none => rw [haux] at hsome; simp at hsome
      | some res =>
        obtain ⟨b, v2, s2⟩ := res
        cases b
        · show detectLoop m rest v2 s2 ≠ none
          have hs2 : s2 = [] := hasCycleAux_false_stack m _ o v [] v2 s2 haux
          rw [hs2]
          exact ih v2 (fun e2 he2 => hmem e2 (List.mem_cons_of_mem _ he2))
        · simp
    · simp only [detectLoop, if_neg ho]
      exact ih v (fun e2 he2 => hmem e2 (List.mem_cons_of_mem _ he2))

theorem detectLoop_complete (m : List (Rat × Rat)) :
    ∀ (entries : List (Rat × Rat)) (v : List Rat),
      (∀ e ∈ entries, e ∈ m) →
      (∀ n ∈ v, ¬reachesCycle m n) →
      (∃ c rc, (c, rc) ∈ entries ∧ c ≠ rc ∧ reachesCycle m c) →
      detectLoop m entries v [] = some true := by
  intro entries
  induction entries with
  | nil =>
    rintro v _ _ ⟨c, rc, hcm, _, _⟩
    simp at hcm
  | cons e rest ih =>
    obtain ⟨o, r⟩ := e
    rintro v hmem hinv ⟨c, rc, hcm, hcne, hcreach⟩
    by_cases ho : o ≠ r
    · have honode : o ∈ allNodes m :=
        mem_allNodes_left (hmem (o, r) (List.mem_cons_self _ _))
      have hcount : countNot m v < detectFuel m := by
        have := countNot_le m v
        unfold detectFuel
        omega
      have hinv2 : ∀ n ∈ v, n ∈ ([] : List Rat) ∨ ¬reachesCycle m n :=
        fun n hn => Or.inr (hinv n hn)
      simp only [detectLoop, if_pos ho]
      cases haux : hasCycleAux m (detectFuel m) o v [] with
      | none =>
        have hsome := hasCycleAux_isSome m (detectFuel m) o v [] honode hcount
        rw [haux] at hsome
        simp at hsome
      | some res =>
        obtain ⟨b, v2, s2⟩ := res
        cases b
        · rcases List.mem_cons.mp hcm with hceq | hcm2
          · exfalso
            have hco : c = o := by
              have := congrArg Prod.fst hceq
              simpa using this
            obtain ⟨v9, s9, h9⟩ := hasCycleAux_complete m (detectFuel m) o v []
              (hco ▸ hcreach) hinv2 honode hcount
            rw [haux] at h9
            simp at h9
          · have hs2 : s2 = [] := hasCycleAux_false_stack m _ o v [] v2 s2 haux
            have hsafe := hasCycleAux_safe m (detectFuel m) o v [] v2 s2 hinv2 haux
            have hinv3 : ∀ n ∈ v2, ¬reachesCycle m n := by
              intro n hn
              rcases hsafe n hn with hh | hh
              · simp at hh
              · exact hh
            have hrec := ih v2 (fun e2 he2 => hmem e2 (List.mem_cons_of_mem _ he2))
              hinv3 ⟨c, rc, hcm2, hcne, hcreach⟩
            show detectLoop m rest v2 s2 = some true
            rw [hs2]
            exact hrec
        · rfl
    · simp only [detectLoop, if_neg ho]
      apply ih v (fun e2 he2 => hmem e2 (List.mem_cons_of_mem _ he2)) hinv
      rcases List.mem_cons.mp hcm with hceq | hcm2
      · exfalso
        rw [Ne, not_not] at ho
        have hc1 : c = o := by
          have := congrArg Prod.fst hceq
          simpa using this
        have hc2 : rc = r := by
          have := congrArg Prod.snd hceq
          simpa using this
        exact hcne (by rw [hc1, hc2, ho])
      · exact ⟨c, rc, hcm2, hcne, hcreach⟩

theorem specCycle_entry {m : List (Rat × Rat)} (h : specCycle m) :
    ∃ c rc, (c, rc) ∈ m ∧ c ≠ rc ∧ reachesCycle m c := by
  obtain ⟨x, k, hk⟩ := h
  have hreach : reachesCycle m x := reaches_of_on_cycle hk
  obtain ⟨y, hy⟩ := reaches_stepF_isSome hreach
  obtain ⟨hl, hne⟩ := stepF_some hy
  exact ⟨x, y, mlookup_mem hl, Ne.symm hne, hreach⟩

/-- C3: for every substitution mapping (restricted by `buildMap` to the
entries whose value is a non-empty numeric string), the detection phase
of the Resolver never runs out of the fuel the embedding gives it, and
it reports a cycle exactly when the directed graph with an edge
`x → y` iff the mapping sends `x` to `y` and `x ≠ y` contains a chain
`a → b → ... → a` of at least one edge — which, self-edges being
excluded, always spans at least 2 distinct values. -/
theorem detectCircularGroup_iff_cycle :
    ∀ g : List (Nat × String),
      detectCircularGroup g ≠ none ∧
      (detectCircularGroup g = some true ↔ specCycle (buildMap g)) := by
  intro g
  constructor
  · show detectLoop (buildMap g) (buildMap g) [] [] ≠ none
    exact detectLoop_isSome (buildMap g) (buildMap g) [] (fun e he => he)
  · constructor
    · intro h
      exact detectLoop_sound (buildMap g) (buildMap g) [] h
    · intro hs
      show detectLoop (buildMap g) (buildMap g) [] [] = some true
      exact detectLoop_complete (buildMap g) (buildMap g) [] (fun e he => he)
        (by simp) (specCycle_entry hs)
